import Mathlib

/-!
Verification of the WIL-DS-workshop analysis notebooks.

The file embeds the executable logic of the two notebooks:

* `WIL_demo_TM.ipynb` — the French formality classifier
  `check_formality_type(text, nlp)`.
* `WIL_demo_Terminology.ipynb` — the chunked frequency / phrase analysis
  engine (`TextPreprocessor`, `FrequencyAnalyzer`, `FrequencyDist`,
  `PhraseAnalyzer`).

Annotated tokens are produced by the external spaCy annotation engine, so a
token is modelled as a record of the attributes the notebooks read:
surface text, lemma, coarse POS tag, the `Person` / `Number` morphological
feature value lists, and the `is_stop` / `is_alpha` flags.  Raw text is
modelled as `List Char`; Python `Counter` / `dict` objects are modelled as
insertion-ordered association lists with unique keys, updated exactly the
way `counter[key] += 1` updates a Python dict.
-/

/-- An annotated token as consumed by both notebooks: the spaCy attributes
`text`, `lemma_`, `pos_`, `morph.get("Person")`, `morph.get("Number")`,
`is_stop` and `is_alpha`. -/
structure Token where
  text : String
  lemma_ : String
  pos_ : String
  person : List String
  number : List String
  is_stop : Bool
  is_alpha : Bool
deriving DecidableEq, Repr

/-! ## Formality classifier (`WIL_demo_TM.ipynb`, `check_formality_type`) -/

/-- The closed formal-pronoun list from the source:
`["vous", "vôtre", "vôtres", "votre", "vos"]`. -/
def formalWords : List String := ["vous", "vôtre", "vôtres", "votre", "vos"]

/-- The apostrophe character, U+0027. -/
def apostrophe : Char := Char.ofNat 39

/-- The elided informal pronoun `t` followed by an apostrophe. -/
def tElided : String := String.mk ['t', apostrophe]

/-- The closed informal-pronoun list from the source:
`["tu", "te", "t" ++ apostrophe, "toi", "tien", "tienne", "tiens",
"tiennes", "ton", "ta", "tes"]`. -/
def informalWords : List String :=
  ["tu", "te", tElided, "toi", "tien", "tienne", "tiens", "tiennes", "ton", "ta", "tes"]

/-- The lexical rule of `check_formality_type`: the `if text_lower in [...]
/ elif text_lower in [...]` pair updating `(plural_found, singular_found)`. -/
def lexicalRule (s : Bool × Bool) (textLower : String) : Bool × Bool :=
  if textLower ∈ formalWords then (true, s.2)
  else if textLower ∈ informalWords then (s.1, true)
  else s

/-- The morphological rule of `check_formality_type`: for `VERB`/`AUX`
tokens whose `Person` feature is exactly `["2"]`, a `Number` of exactly
`["Plur"]` sets `plural_found` and a `Number` of exactly `["Sing"]` sets
`singular_found`. -/
def morphRule (s : Bool × Bool) (t : Token) : Bool × Bool :=
  if t.pos_ ∈ (["VERB", "AUX"] : List String) then
    if t.person = ["2"] then
      if t.number = ["Plur"] then (true, s.2)
      else if t.number = ["Sing"] then (s.1, true)
      else s
    else s
  else s

/-- One loop iteration of `check_formality_type`: the lexical rule on the
lowercased surface text followed by the morphological rule. -/
def formalityStep (s : Bool × Bool) (t : Token) : Bool × Bool :=
  morphRule (lexicalRule s t.text.toLower) t

/-- `check_formality_type` from `WIL_demo_TM.ipynb`: a single pass over the
annotated tokens accumulating `(plural_found, singular_found)` from `(false,
false)`, resolved to one of the three result strings. -/
def check_formality_type (tokens : List Token) : String :=
  let r := tokens.foldl formalityStep (false, false)
  if r.1 && r.2 then "Not Applicable"
  else if r.1 then "Formal"
  else if r.2 then "Informal"
  else "Not Applicable"

/-- Per-token plural (formal) evidence, as the spec words it: lowercased
surface text in the formal-pronoun set, or a `VERB`/`AUX` token with
`Person` exactly `["2"]` and `Number` exactly `["Plur"]`. -/
def pluralEvidence (t : Token) : Bool :=
  decide (t.text.toLower ∈ formalWords) ||
    (decide (t.pos_ ∈ (["VERB", "AUX"] : List String)) &&
      decide (t.person = ["2"]) && decide (t.number = ["Plur"]))

/-- Per-token singular (informal) evidence, as the spec words it: lowercased
surface text in the informal-pronoun set, or a `VERB`/`AUX` token with
`Person` exactly `["2"]` and `Number` exactly `["Sing"]`. -/
def singularEvidence (t : Token) : Bool :=
  decide (t.text.toLower ∈ informalWords) ||
    (decide (t.pos_ ∈ (["VERB", "AUX"] : List String)) &&
      decide (t.person = ["2"]) && decide (t.number = ["Sing"]))

/-! ## Text chunker (`WIL_demo_Terminology.ipynb`, `TextPreprocessor`) -/

/-- Python `\s` on the characters the notebooks handle: space, tab,
newline, carriage return, vertical tab, form feed. -/
def isPySpace (c : Char) : Bool :=
  c = ' ' || c = '\t' || c = '\n' || c = '\r' || c = '\x0b' || c = '\x0c'

/-- Python `str.strip()`: remove leading and trailing whitespace. -/
def stripChars (l : List Char) : List Char :=
  ((l.dropWhile isPySpace).reverse.dropWhile isPySpace).reverse

/-!
`re.split(r'\n\s*\n', text)` as a single left-to-right pass.  A separator
match starts at a `'\n'` followed (within the same whitespace run) by
another `'\n'`; the greedy `\s*` backtracks so the match extends exactly to
the last `'\n'` of that run, and any non-newline whitespace after that
final `'\n'` belongs to the next piece.  The pass keeps three states:
`splitS0` is ordinary scanning (`acc` holds the current piece, reversed);
`splitS1` has seen one `'\n'` and buffers the whitespace after it
(reversed, in `buf`) until a second `'\n'` confirms a separator or a
non-whitespace character returns the buffer to the piece; `splitS2` is
inside a confirmed separator and buffers (reversed, in `post`) the
non-newline whitespace after the most recent `'\n'`, which is flushed into
the separator by a further `'\n'` or becomes the start of the next piece.
-/

/-- The scanning state of the split pass: `s0` is ordinary scanning, `s1 buf`
has seen one `'\n'` (with `buf` the reversed whitespace from it onwards),
`s2 post` is inside a confirmed separator (with `post` the reversed
non-newline whitespace after its most recent `'\n'`). -/
inductive SplitState where
  | s0
  | s1 (buf : List Char)
  | s2 (post : List Char)
deriving DecidableEq, Repr

/-- The split pass itself; `acc` holds the current piece, reversed. -/
def splitGo : List Char → SplitState → List Char → List (List Char)
  | [], .s0, acc => [acc.reverse]
  | [], .s1 buf, acc => [acc.reverse ++ buf.reverse]
  | [], .s2 post, acc => [acc.reverse, post.reverse]
  | c :: rest, .s0, acc =>
    if c = '\n' then splitGo rest (.s1 ['\n']) acc
    else splitGo rest .s0 (c :: acc)
  | c :: rest, .s1 buf, acc =>
    if c = '\n' then splitGo rest (.s2 []) acc
    else if isPySpace c then splitGo rest (.s1 (c :: buf)) acc
    else splitGo rest .s0 (c :: (buf ++ acc))
  | c :: rest, .s2 post, acc =>
    if c = '\n' then splitGo rest (.s2 []) acc
    else if isPySpace c then splitGo rest (.s2 (c :: post)) acc
    else acc.reverse :: splitGo rest .s0 (c :: post)

/-- `re.split(r'\n\s*\n', text)`. -/
def splitRe (text : List Char) : List (List Char) :=
  splitGo text .s0 []

/-- `TextPreprocessor.split_paragraphs`:
`[p.strip() for p in re.split(r'\n\s*\n', text) if p.strip()]`. -/
def split_paragraphs (text : List Char) : List (List Char) :=
  ((splitRe text).map stripChars).filter (fun p => p ≠ [])

/-- Total number of characters of the paragraphs accumulated in a chunk:
the quantity the `current_length` variable of `process_text` tracks. -/
def paraSum (chunk : List (List Char)) : Nat := (chunk.map List.length).sum

/-- The accumulation loop of `TextPreprocessor.process_text`: greedily
collect paragraphs into `cur` while `current_length + len(para)` stays
within `chunkSize`; otherwise emit `cur` and restart from `para`; flush the
final chunk if non-empty. -/
def chunkLoop (chunkSize : Nat) :
    List (List Char) → List (List Char) → Nat → List (List (List Char))
  | [], cur, _ => if cur.isEmpty then [] else [cur]
  | p :: ps, cur, len =>
    if len + p.length > chunkSize then
      cur :: chunkLoop chunkSize ps [p] p.length
    else
      chunkLoop chunkSize ps (cur ++ [p]) (len + p.length)

/-- `'\n\n'.join(current_chunk)`. -/
def joinParas : List (List Char) → List Char
  | [] => []
  | [p] => p
  | p :: q :: ps => p ++ '\n' :: '\n' :: joinParas (q :: ps)

/-- `TextPreprocessor.process_text` at the text level: split into
paragraphs, accumulate them into chunks, and join each chunk with a
blank-line separator (the joined string is what each `self.nlp(chunk_text)`
call receives). -/
def process_text (chunkSize : Nat) (text : List Char) : List (List Char) :=
  (chunkLoop chunkSize (split_paragraphs text) [] 0).map joinParas

/-! ## Count tables (Python `Counter` objects) -/

/-- `counter[key] += 1` on an insertion-ordered table: update the existing
entry in place, or append a fresh entry with count 1. -/
def counterAdd : List (String × Nat) → String → List (String × Nat)
  | [], k => [(k, 1)]
  | (k0, v) :: rest, k =>
    if k0 = k then (k0, v + 1) :: rest else (k0, v) :: counterAdd rest k

/-- The count stored under a key, 0 if the key is absent. -/
def lookupCount : List (String × Nat) → String → Nat
  | [], _ => 0
  | (k0, v) :: rest, k => if k0 = k then v else lookupCount rest k

/-! ## Frequency aggregation (`FrequencyAnalyzer`) -/

/-- The three POS-bucketed count tables built by
`FrequencyAnalyzer.get_pos_frequencies`. -/
structure Counters where
  verbs : List (String × Nat)
  nouns : List (String × Nat)
  adjectives : List (String × Nat)
deriving DecidableEq, Repr

/-- One iteration of `FrequencyAnalyzer._process_doc_tokens`: a token is
counted only if it is not a stop word, is alphabetic, has surface length
greater than 2, and its lowercased lemma is not in the preprocessor's
stop-word list; the bucket is chosen by `token.pos_`. -/
def procToken (stops : List String) (s : Counters) (t : Token) : Counters :=
  if !t.is_stop && t.is_alpha && decide (2 < t.text.length) then
    let lem := t.lemma_.toLower
    if lem ∉ stops then
      if t.pos_ = "VERB" then { s with verbs := counterAdd s.verbs lem }
      else if t.pos_ = "NOUN" then { s with nouns := counterAdd s.nouns lem }
      else if t.pos_ = "ADJ" then { s with adjectives := counterAdd s.adjectives lem }
      else s
    else s
  else s

/-- `FrequencyAnalyzer._process_doc_tokens`: fold `procToken` over the
tokens of one annotated chunk. -/
def processDocTokens (stops : List String) (s : Counters) (doc : List Token) : Counters :=
  doc.foldl (procToken stops) s

/-- `FrequencyAnalyzer.get_pos_frequencies` on a list of annotated chunks:
start from three empty counters and process every chunk in order. -/
def get_pos_frequencies (stops : List String) (chunks : List (List Token)) : Counters :=
  chunks.foldl (processDocTokens stops) ⟨[], [], []⟩

/-- The per-token inclusion rule of `_process_doc_tokens`, specialised to
one bucket tag `pos` and one table key `k`: the token passes every filter,
carries tag `pos`, and its lowercased lemma is `k`. -/
def contributes (stops : List String) (pos : String) (k : String) (t : Token) : Bool :=
  !t.is_stop && t.is_alpha && decide (2 < t.text.length) &&
    decide (t.lemma_.toLower ∉ stops) && (t.pos_ == pos) && (t.lemma_.toLower == k)

/-! ## Frequency distribution (`FrequencyDist`) -/

/-- The comparison underlying `sorted(counter.items(), key=lambda x:
(-x[1], x[0]))`: descending count, ascending key among equal counts. -/
def rankLe (a b : String × Nat) : Prop :=
  b.2 < a.2 ∨ (a.2 = b.2 ∧ a.1 ≤ b.1)

instance : DecidableRel rankLe := fun a b => by
  unfold rankLe
  infer_instance

instance : IsTotal (String × Nat) rankLe := by
  constructor
  intro a b
  unfold rankLe
  rcases Nat.lt_trichotomy a.2 b.2 with h | h | h
  · exact Or.inr (Or.inl h)
  · rcases le_total a.1 b.1 with h2 | h2
    · exact Or.inl (Or.inr ⟨h, h2⟩)
    · exact Or.inr (Or.inr ⟨h.symm, h2⟩)
  · exact Or.inl (Or.inl h)

instance : IsTrans (String × Nat) rankLe := by
  constructor
  intro a b c hab hbc
  unfold rankLe at *
  rcases hab with h1 | ⟨h1, h1s⟩ <;> rcases hbc with h2 | ⟨h2, h2s⟩
  · exact Or.inl (by omega)
  · exact Or.inl (by omega)
  · exact Or.inl (by omega)
  · exact Or.inr ⟨h1.trans h2, h1s.trans h2s⟩

/-- `FrequencyDist._sorted_items`: the ranking index computed once in
`__init__`.  Python's `sorted` is a stable sort; `List.insertionSort` is
the stable sort of the library (on the `(-count, key)` comparison the order
is total, so stability never matters between distinct entries of a table
with unique keys). -/
def sorted_items (c : List (String × Nat)) : List (String × Nat) :=
  c.insertionSort rankLe

/-- `FrequencyDist.most_common(n)`: the first `n` entries of the ranking
index, or all of it when `n is None`. -/
def most_common (c : List (String × Nat)) (n : Option Nat) : List (String × Nat) :=
  match n with
  | none => sorted_items c
  | some n => (sorted_items c).take n

/-- `FrequencyDist.least_common(n, min_freq)`: filter the ranking index to
counts at least `min_freq`, reverse it, and take the first `n` (all of it
when `n is None`).  `min_freq` is an integer, so negative values are
representable. -/
def least_common (c : List (String × Nat)) (n : Option Nat) (minFreq : Int) :
    List (String × Nat) :=
  let filtered := (sorted_items c).filter (fun p => minFreq ≤ (p.2 : Int))
  match n with
  | none => filtered.reverse
  | some n => filtered.reverse.take n

/-- `FrequencyDist.get_range(start, end)`: entries of the ranking index
whose count lies within the (optional) bounds. -/
def get_range (c : List (String × Nat)) (start stop : Option Int) :
    List (String × Nat) :=
  (sorted_items c).filter (fun p =>
    (match start with | none => true | some s => decide (s ≤ (p.2 : Int))) &&
    (match stop with | none => true | some e => decide ((p.2 : Int) ≤ e)))

/-- The comparison underlying `sorted(counter.items(), key=lambda x:
(len(x[0]), x[1]), reverse=True)`: descending key length, then descending
count; ties keep the table's insertion order (Python's sort is stable, and
`reverse=True` reverses comparisons, not the placement of ties). -/
def lenGe (a b : String × Nat) : Prop :=
  b.1.length < a.1.length ∨ (a.1.length = b.1.length ∧ b.2 ≤ a.2)

instance : DecidableRel lenGe := fun a b => by
  unfold lenGe
  infer_instance

instance : IsTotal (String × Nat) lenGe := by
  constructor
  intro a b
  unfold lenGe
  omega

instance : IsTrans (String × Nat) lenGe := by
  constructor
  intro a b c hab hbc
  unfold lenGe at *
  omega

/-- `FrequencyDist.get_longest(n)`: the table's items stably sorted by the
`(key length, count)` key in reverse, truncated to `n`. -/
def get_longest (c : List (String × Nat)) (n : Nat) : List (String × Nat) :=
  (c.insertionSort lenGe).take n

/-- The median of a list of counts, over `ℚ` (`np.median`). -/
def medianQ (l : List Nat) : ℚ :=
  let s := l.insertionSort (· ≤ ·)
  if l.length % 2 = 1 then ((s.getD (l.length / 2) 0 : Nat) : ℚ)
  else (((s.getD (l.length / 2 - 1) 0 : Nat) : ℚ) + ((s.getD (l.length / 2) 0 : Nat) : ℚ)) / 2

/-- The dictionary returned by `FrequencyDist.get_stats()`. -/
structure StatsDict where
  total_occurrences : Nat
  unique_words : Nat
  mean_frequency : ℚ
  median_frequency : ℚ
  max_frequency : Nat
  min_frequency : Nat
deriving DecidableEq, Repr

/-- `FrequencyDist.get_stats()`.  On an empty table Python's
`max(frequencies)` raises `ValueError` before the dictionary is built
(`np.mean` and `np.median` only warn and return `nan`), modelled as the
`Except.error` branch; on a non-empty table the statistics dictionary is
returned (`np.mean` over the integer counts is the exact rational mean
here). -/
def get_stats (c : List (String × Nat)) : Except String StatsDict :=
  match c.map Prod.snd with
  | [] => Except.error "ValueError: max() arg is an empty sequence"
  | f :: fs =>
    Except.ok
      { total_occurrences := (f :: fs).sum
        unique_words := c.length
        mean_frequency := ((f :: fs).sum : ℚ) / (((f :: fs).length : Nat) : ℚ)
        median_frequency := medianQ (f :: fs)
        max_frequency := fs.foldl Nat.max f
        min_frequency := fs.foldl Nat.min f }

/-! ## Phrase aggregation (`PhraseAnalyzer`) -/

/-- Python `str.split()` with no argument: split on whitespace runs,
discarding empty pieces. -/
def pySplitAux : List Char → List Char → List (List Char)
  | [], cur => if cur.isEmpty then [] else [cur.reverse]
  | c :: rest, cur =>
    if isPySpace c then
      if cur.isEmpty then pySplitAux rest [] else cur.reverse :: pySplitAux rest []
    else pySplitAux rest (c :: cur)

/-- `' '.join([token.lemma_.lower() for token in chunk if not token.is_stop
and token.is_alpha])`: the normalized phrase built from one noun-phrase
span. -/
def normalizePhrase (span : List Token) : String :=
  String.intercalate " "
    ((span.filter (fun t => !t.is_stop && t.is_alpha)).map (fun t => t.lemma_.toLower))

/-- The counting guard of `PhraseAnalyzer.get_noun_phrases`:
`if phrase and len(phrase.split()) > 1`. -/
def phraseKept (span : List Token) : Bool :=
  let phrase := normalizePhrase span
  !(phrase == "") && decide (1 < (pySplitAux phrase.data []).length)

/-- `PhraseAnalyzer.get_noun_phrases`: for every noun-phrase span of every
chunk, count the normalized phrase when the guard passes. -/
def get_noun_phrases (docs : List (List (List Token))) : List (String × Nat) :=
  docs.foldl
    (fun acc doc =>
      doc.foldl
        (fun acc2 span =>
          if phraseKept span then counterAdd acc2 (normalizePhrase span) else acc2)
        acc)
    []

/-! ## Helper lemmas -/

/-- The two closed pronoun lists are disjoint. -/
theorem formal_informal_disjoint : ∀ x ∈ formalWords, x ∉ informalWords := by
  decide

/-- One classifier iteration sets each evidence flag exactly when the token
carries the corresponding evidence. -/
theorem formalityStep_eq (s : Bool × Bool) (t : Token) :
    formalityStep s t = (s.1 || pluralEvidence t, s.2 || singularEvidence t) := by
  obtain ⟨b1, b2⟩ := s
  have hdisj := formal_informal_disjoint
  unfold formalityStep lexicalRule morphRule pluralEvidence singularEvidence
  by_cases h1 : t.text.toLower ∈ formalWords <;>
    by_cases h2 : t.text.toLower ∈ informalWords <;>
    by_cases h3 : t.pos_ ∈ (["VERB", "AUX"] : List String) <;>
    by_cases h4 : t.person = ["2"] <;>
    by_cases h5 : t.number = ["Plur"] <;>
    by_cases h6 : t.number = ["Sing"] <;>
    simp_all

/-- The classifier's accumulation pass computes, for each polarity, whether
any token of the sequence carries that evidence. -/
theorem foldl_formalityStep (ts : List Token) (b1 b2 : Bool) :
    ts.foldl formalityStep (b1, b2) =
      (b1 || ts.any pluralEvidence, b2 || ts.any singularEvidence) := by
  induction ts generalizing b1 b2 with
  | nil => simp
  | cons t ts ih =>
    simp only [List.foldl_cons, formalityStep_eq, ih, List.any_cons, Bool.or_assoc]

/-- C1: `check_formality_type` is total over every token sequence (including
the empty one) and returns exactly one of the three result strings:
`"Formal"` precisely when some token carries plural evidence and none
carries singular evidence, `"Informal"` precisely when some token carries
singular evidence and none carries plural evidence, and `"Not Applicable"`
precisely when both kinds of evidence occur or neither does — where a token
carries plural (resp. singular) evidence exactly as `pluralEvidence`
(resp. `singularEvidence`) states: its lowercased surface text lies in the
closed formal (resp. informal) pronoun set, or it is a `VERB`/`AUX` token
with `Person` exactly `["2"]` and `Number` exactly `["Plur"]`
(resp. `["Sing"]`); any other morphological combination contributes no
evidence. -/
theorem check_formality_type_spec (ts : List Token) :
    (check_formality_type ts = "Formal" ∨ check_formality_type ts = "Informal" ∨
      check_formality_type ts = "Not Applicable") ∧
    (check_formality_type ts = "Formal" ↔
      ((∃ t ∈ ts, pluralEvidence t = true) ∧ ¬ ∃ t ∈ ts, singularEvidence t = true)) ∧
    (check_formality_type ts = "Informal" ↔
      ((∃ t ∈ ts, singularEvidence t = true) ∧ ¬ ∃ t ∈ ts, pluralEvidence t = true)) ∧
    (check_formality_type ts = "Not Applicable" ↔
      (((∃ t ∈ ts, pluralEvidence t = true) ∧ (∃ t ∈ ts, singularEvidence t = true)) ∨
        ((¬ ∃ t ∈ ts, pluralEvidence t = true) ∧ ¬ ∃ t ∈ ts, singularEvidence t = true))) := by
  have hfold := foldl_formalityStep ts false false
  have hp := List.any_eq_true (l := ts) (p := pluralEvidence)
  have hs := List.any_eq_true (l := ts) (p := singularEvidence)
  unfold check_formality_type
  rw [hfold]
  rcases hap : ts.any pluralEvidence <;> rcases has : ts.any singularEvidence <;>
    simp_all

/-- Invariant of the chunk-accumulation loop: provided the running chunk
satisfies it, every emitted chunk either keeps its accumulated paragraph
characters within the limit or consists of a single paragraph. -/
theorem chunkLoop_inv (chunkSize : Nat) (ps : List (List Char)) :
    ∀ (cur : List (List Char)) (len : Nat), len = paraSum cur →
      (paraSum cur ≤ chunkSize ∨ cur.length = 1) →
      ∀ c ∈ chunkLoop chunkSize ps cur len, paraSum c ≤ chunkSize ∨ c.length = 1 := by
  induction ps with
  | nil =>
    intro cur len hlen hcur c hc
    cases cur with
    | nil => simp [chunkLoop] at hc
    | cons p0 cur0 =>
      simp [chunkLoop] at hc
      subst hc
      exact hcur
  | cons p ps ih =>
    intro cur len hlen hcur c hc
    unfold chunkLoop at hc
    by_cases hover : len + p.length > chunkSize
    · simp only [if_pos hover] at hc
      rcases List.mem_cons.mp hc with hc1 | hc1
      · exact hc1 ▸ hcur
      · refine ih [p] p.length ?_ ?_ c hc1
        · simp [paraSum]
        · right; rfl
    · simp only [if_neg hover] at hc
      refine ih (cur ++ [p]) (len + p.length) ?_ ?_ c hc
      · simp [paraSum, hlen]
      · left
        have : paraSum (cur ++ [p]) = paraSum cur + p.length := by
          simp [paraSum]
        omega

/-- Length of a blank-line-joined chunk: the paragraph characters plus two
separator characters per inner boundary. -/
theorem joinParas_length (c : List (List Char)) :
    (joinParas c).length = paraSum c + 2 * (c.length - 1) := by
  induction c with
  | nil => simp [joinParas, paraSum]
  | cons p ps ih =>
    cases ps with
    | nil => simp [joinParas, paraSum]
    | cons q qs =>
      simp only [joinParas, List.length_append, List.length_cons, ih] at *
      simp [paraSum] at *
      omega

/-- C2 counterexample: with `max_chunk_size = 10` and the two 5-character
paragraphs of `"aaaaa\n\nbbbbb"`, the single emitted chunk contains both
paragraphs and its joined text is 12 characters long, because
`current_length` counts paragraph characters but not the two-character
`'\n\n'` separators added by `join`. -/
theorem chunk_size_bound_cx :
    ¬ (∀ c ∈ chunkLoop 10 (split_paragraphs ("aaaaa\n\nbbbbb").data) [] 0,
        (joinParas c).length ≤ 10 ∨ c.length = 1) := by
  decide

/-- C2 amended: every chunk produced by `process_text` keeps its paragraph
characters (the quantity the accumulator bounds) within `max_chunk_size`
unless it is a single oversized paragraph; consequently the joined chunk
text is bounded by `max_chunk_size` plus two characters per inner paragraph
boundary, not by `max_chunk_size` itself. -/
theorem chunk_size_bound_amended (chunkSize : Nat) (text : List Char) :
    ∀ c ∈ chunkLoop chunkSize (split_paragraphs text) [] 0,
      (paraSum c ≤ chunkSize ∧
        (joinParas c).length ≤ chunkSize + 2 * (c.length - 1)) ∨ c.length = 1 := by
  intro c hc
  rcases chunkLoop_inv chunkSize (split_paragraphs text) [] 0 rfl
      (Or.inl (by simp [paraSum])) c hc with h | h
  · left
    refine ⟨h, ?_⟩
    rw [joinParas_length]
    omega
  · right; exact h

/-- C2 witness: the amended bound evaluated on the two-paragraph chunk of
the counterexample input. -/
theorem chunk_size_bound_amended_witness :
    (paraSum [("aaaaa").data, ("bbbbb").data] ≤ 10 ∧
      (joinParas [("aaaaa").data, ("bbbbb").data]).length ≤
        10 + 2 * (([("aaaaa").data, ("bbbbb").data] : List (List Char)).length - 1)) ∨
      ([("aaaaa").data, ("bbbbb").data] : List (List Char)).length = 1 :=
  chunk_size_bound_amended 10 ("aaaaa\n\nbbbbb").data
    [("aaaaa").data, ("bbbbb").data] (by decide)


/-- Characters of the split pieces come from the scanned text, the current
piece accumulator, or the pending state buffer; hence if all of those are
whitespace, every piece is whitespace-only. -/
theorem splitGo_whitespace (l : List Char) :
    ∀ (st : SplitState) (acc : List Char),
      (∀ x ∈ l, isPySpace x = true) →
      (∀ x ∈ acc, isPySpace x = true) →
      (∀ buf, st = SplitState.s1 buf → ∀ x ∈ buf, isPySpace x = true) →
      (∀ post, st = SplitState.s2 post → ∀ x ∈ post, isPySpace x = true) →
      ∀ piece ∈ splitGo l st acc, ∀ x ∈ piece, isPySpace x = true := by
  induction l with
  | nil =>
    intro st acc _ hacc h1 h2 piece hpiece x hx
    cases st with
    | s0 =>
      simp only [splitGo, List.mem_singleton] at hpiece
      subst hpiece
      exact hacc x (List.mem_reverse.mp hx)
    | s1 buf =>
      simp only [splitGo, List.mem_singleton] at hpiece
      subst hpiece
      rcases List.mem_append.mp hx with h | h
      · exact hacc x (List.mem_reverse.mp h)
      · exact h1 buf rfl x (List.mem_reverse.mp h)
    | s2 post =>
      simp only [splitGo, List.mem_cons, List.mem_singleton, List.not_mem_nil,
        or_false] at hpiece
      rcases hpiece with h | h
      · subst h
        exact hacc x (List.mem_reverse.mp hx)
      · subst h
        exact h2 post rfl x (List.mem_reverse.mp hx)
  | cons c rest ih =>
    intro st acc hl hacc h1 h2 piece hpiece x hx
    have hc : isPySpace c = true := hl c (List.mem_cons_self c rest)
    have hrest : ∀ x ∈ rest, isPySpace x = true :=
      fun y hy => hl y (List.mem_cons_of_mem c hy)
    cases st with
    | s0 =>
      by_cases hnl : c = '\n'
      · simp only [splitGo, if_pos hnl] at hpiece
        refine ih (.s1 ['\n']) acc hrest hacc ?_ (by simp) piece hpiece x hx
        intro buf hbuf y hy
        cases hbuf
        simp only [List.mem_singleton] at hy
        subst hy
        decide
      · simp only [splitGo, if_neg hnl] at hpiece
        refine ih .s0 (c :: acc) hrest ?_ (by simp) (by simp) piece hpiece x hx
        intro y hy
        rcases List.mem_cons.mp hy with h | h
        · exact h ▸ hc
        · exact hacc y h
    | s1 buf =>
      by_cases hnl : c = '\n'
      · simp only [splitGo, if_pos hnl] at hpiece
        exact ih (.s2 []) acc hrest hacc (by simp) (by simp) piece hpiece x hx
      · simp only [splitGo, if_neg hnl, if_pos hc] at hpiece
        refine ih (.s1 (c :: buf)) acc hrest hacc ?_ (by simp) piece hpiece x hx
        intro buf2 hbuf2 y hy
        cases hbuf2
        rcases List.mem_cons.mp hy with h | h
        · exact h ▸ hc
        · exact h1 buf rfl y h
    | s2 post =>
      by_cases hnl : c = '\n'
      · simp only [splitGo, if_pos hnl] at hpiece
        exact ih (.s2 []) acc hrest hacc (by simp) (by simp) piece hpiece x hx
      · simp only [splitGo, if_neg hnl, if_pos hc] at hpiece
        refine ih (.s2 (c :: post)) acc hrest hacc (by simp) ?_ piece hpiece x hx
        intro post2 hpost2 y hy
        cases hpost2
        rcases List.mem_cons.mp hy with h | h
        · exact h ▸ hc
        · exact h2 post rfl y h

/-- Stripping a whitespace-only string yields the empty string. -/
theorem stripChars_eq_nil (p : List Char) (h : ∀ x ∈ p, isPySpace x = true) :
    stripChars p = [] := by
  unfold stripChars
  rw [List.dropWhile_eq_nil_iff.mpr h]
  simp

/-- The accumulation loop on a single paragraph: one chunk if the paragraph
fits, otherwise an empty chunk followed by the paragraph alone. -/
theorem chunkLoop_single (chunkSize : Nat) (p : List Char) :
    chunkLoop chunkSize [p] [] 0 =
      if chunkSize < p.length then [[], [p]] else [[p]] := by
  by_cases h : chunkSize < p.length
  · simp [chunkLoop, h, Nat.zero_add]
  · have h2 : ¬ (0 + p.length > chunkSize) := by omega
    simp [chunkLoop, h, h2]

/-- C3 counterexample: the 2-character text `"ab"` has no blank-line
paragraph boundary (the split returns it whole), yet with
`max_chunk_size = 1` the chunker returns two chunks — a spurious empty
chunk (the `'\n\n'.join` of the still-empty accumulator list) followed by
the oversized paragraph. -/
theorem single_paragraph_cx :
    splitRe ("ab").data = [("ab").data] ∧
      process_text 1 ("ab").data = [[], ("ab").data] := by
  decide

/-- C3 amended: whitespace-only input still chunks to the empty sequence,
and an input with no blank-line paragraph boundary yields exactly one chunk
(its stripped text) when that text fits in `max_chunk_size`; when it
exceeds `max_chunk_size` the chunker instead emits a leading empty chunk
followed by the stripped text as its own oversized chunk.  No error arises
in any case (the embedding is a total function). -/
theorem single_paragraph_amended (text : List Char) (chunkSize : Nat) :
    ((∀ x ∈ text, isPySpace x = true) → process_text chunkSize text = []) ∧
    (splitRe text = [text] → stripChars text ≠ [] →
      (stripChars text).length ≤ chunkSize →
      process_text chunkSize text = [stripChars text]) ∧
    (splitRe text = [text] → stripChars text ≠ [] →
      chunkSize < (stripChars text).length →
      process_text chunkSize text = [[], stripChars text]) := by
  refine ⟨?_, ?_, ?_⟩
  · intro hws
    have hpieces : ∀ piece ∈ splitRe text, ∀ x ∈ piece, isPySpace x = true :=
      splitGo_whitespace text .s0 [] hws (by simp) (by simp) (by simp)
    have hparas : split_paragraphs text = [] := by
      unfold split_paragraphs
      rw [List.filter_eq_nil_iff]
      intro p hp
      rcases List.mem_map.mp hp with ⟨piece, hpiece, hstrip⟩
      simp [← hstrip, stripChars_eq_nil piece (hpieces piece hpiece)]
    simp [process_text, hparas, chunkLoop]
  · intro hsplit hne hfit
    have hparas : split_paragraphs text = [stripChars text] := by
      unfold split_paragraphs
      rw [hsplit]
      simp [hne]
    rw [process_text, hparas, chunkLoop_single, if_neg (by omega)]
    simp [joinParas]
  · intro hsplit hne hover
    have hparas : split_paragraphs text = [stripChars text] := by
      unfold split_paragraphs
      rw [hsplit]
      simp [hne]
    rw [process_text, hparas, chunkLoop_single, if_pos hover]
    simp [joinParas]

/-- C3 witness: the amended description evaluated on a whitespace-only
input and on a boundary-free input that fits its chunk size. -/
theorem single_paragraph_amended_witness :
    process_text 7 ("  \n\n \t ").data = [] ∧
      process_text 5 ("ab").data = [stripChars ("ab").data] :=
  ⟨(single_paragraph_amended ("  \n\n \t ").data 7).1 (by decide),
    (single_paragraph_amended ("ab").data 5).2.1 (by decide) (by decide) (by decide)⟩

/-- Incrementing one key changes exactly that key's count, by exactly 1. -/
theorem lookupCount_counterAdd (c : List (String × Nat)) (k0 k : String) :
    lookupCount (counterAdd c k0) k =
      lookupCount c k + (if k0 = k then 1 else 0) := by
  induction c with
  | nil =>
    by_cases h : k0 = k <;> simp [counterAdd, lookupCount, h]
  | cons p rest ih =>
    obtain ⟨k1, v⟩ := p
    by_cases h1 : k1 = k0
    · subst h1
      by_cases h2 : k1 = k <;> simp [counterAdd, lookupCount, h2]
    · by_cases h2 : k1 = k
      · subst h2
        have h0 : ¬ k0 = k1 := fun h => h1 h.symm
        simp [counterAdd, lookupCount, h1, h0]
      · simp [counterAdd, lookupCount, h1, h2, ih]

/-- Processing one token adds its contribution (0 or 1) to each bucket's
count for each key. -/
theorem lookupCount_procToken (stops : List String) (s : Counters) (t : Token)
    (k : String) :
    lookupCount (procToken stops s t).verbs k =
      lookupCount s.verbs k + (if contributes stops "VERB" k t then 1 else 0) ∧
    lookupCount (procToken stops s t).nouns k =
      lookupCount s.nouns k + (if contributes stops "NOUN" k t then 1 else 0) ∧
    lookupCount (procToken stops s t).adjectives k =
      lookupCount s.adjectives k + (if contributes stops "ADJ" k t then 1 else 0) := by
  unfold procToken contributes
  by_cases hstop : t.is_stop <;>
    by_cases halpha : t.is_alpha <;>
    by_cases hlen : 2 < t.text.length <;>
    by_cases hlem : t.lemma_.toLower ∈ stops <;>
    by_cases hk : t.lemma_.toLower = k
  all_goals
    by_cases hv : t.pos_ = "VERB" <;>
      by_cases hn : t.pos_ = "NOUN" <;>
      by_cases ha : t.pos_ = "ADJ" <;>
      simp_all [lookupCount_counterAdd]
  all_goals
    have hnl : ¬ 2 < t.text.length := by omega
    simp [if_neg hnl]

/-- Folding one chunk's tokens adds the number of contributing tokens to
each bucket's count for each key. -/
theorem lookupCount_processDocTokens (stops : List String) (doc : List Token) :
    ∀ (s : Counters) (k : String),
      lookupCount (processDocTokens stops s doc).verbs k =
        lookupCount s.verbs k + doc.countP (contributes stops "VERB" k) ∧
      lookupCount (processDocTokens stops s doc).nouns k =
        lookupCount s.nouns k + doc.countP (contributes stops "NOUN" k) ∧
      lookupCount (processDocTokens stops s doc).adjectives k =
        lookupCount s.adjectives k + doc.countP (contributes stops "ADJ" k) := by
  induction doc with
  | nil => intro s k; simp [processDocTokens]
  | cons t ts ih =>
    intro s k
    have hstep := lookupCount_procToken stops s t k
    have hrest := ih (procToken stops s t) k
    simp only [processDocTokens, List.foldl_cons] at *
    refine ⟨?_, ?_, ?_⟩ <;>
      · rw [List.countP_cons]
        omega

/-- The whole aggregation pass counts, for each key and bucket, exactly the
contributing tokens of the flattened chunk sequence. -/
theorem lookupCount_get_pos_frequencies (stops : List String)
    (chunks : List (List Token)) (k : String) :
    lookupCount (get_pos_frequencies stops chunks).verbs k =
      chunks.flatten.countP (contributes stops "VERB" k) ∧
    lookupCount (get_pos_frequencies stops chunks).nouns k =
      chunks.flatten.countP (contributes stops "NOUN" k) ∧
    lookupCount (get_pos_frequencies stops chunks).adjectives k =
      chunks.flatten.countP (contributes stops "ADJ" k) := by
  suffices h : ∀ (s : Counters),
      lookupCount (chunks.foldl (processDocTokens stops) s).verbs k =
        lookupCount s.verbs k + chunks.flatten.countP (contributes stops "VERB" k) ∧
      lookupCount (chunks.foldl (processDocTokens stops) s).nouns k =
        lookupCount s.nouns k + chunks.flatten.countP (contributes stops "NOUN" k) ∧
      lookupCount (chunks.foldl (processDocTokens stops) s).adjectives k =
        lookupCount s.adjectives k + chunks.flatten.countP (contributes stops "ADJ" k) by
    have := h ⟨[], [], []⟩
    simpa [get_pos_frequencies, lookupCount] using this
  induction chunks with
  | nil => intro s; simp
  | cons doc docs ih =>
    intro s
    have hdoc := lookupCount_processDocTokens stops doc s k
    have hrest := ih (processDocTokens stops s doc)
    simp only [List.foldl_cons, List.flatten_cons, List.countP_append] at *
    omega

/-- C4: a token adds exactly 1 to the count of its lowercased lemma in the
bucket of its POS tag — `VERB`, `NOUN` or `ADJ` — if and only if it is not
a stop word, is alphabetic, has surface text longer than 2 characters, and
its lowercased lemma is not itself a stop word; every bucket's count for
every key equals the number of such contributing tokens, so a token with
any other tag (or failing any filter) is counted in no bucket. -/
theorem pos_bucket_inclusion (stops : List String) (chunks : List (List Token))
    (k : String) :
    lookupCount (get_pos_frequencies stops chunks).verbs k =
      chunks.flatten.countP (fun t =>
        !t.is_stop && t.is_alpha && decide (2 < t.text.length) &&
          decide (t.lemma_.toLower ∉ stops) && (t.pos_ == "VERB") &&
          (t.lemma_.toLower == k)) ∧
    lookupCount (get_pos_frequencies stops chunks).nouns k =
      chunks.flatten.countP (fun t =>
        !t.is_stop && t.is_alpha && decide (2 < t.text.length) &&
          decide (t.lemma_.toLower ∉ stops) && (t.pos_ == "NOUN") &&
          (t.lemma_.toLower == k)) ∧
    lookupCount (get_pos_frequencies stops chunks).adjectives k =
      chunks.flatten.countP (fun t =>
        !t.is_stop && t.is_alpha && decide (2 < t.text.length) &&
          decide (t.lemma_.toLower ∉ stops) && (t.pos_ == "ADJ") &&
          (t.lemma_.toLower == k)) :=
  lookupCount_get_pos_frequencies stops chunks k

/-- C5: frequency aggregation is an order-independent, associative counting
fold: for any split of a chunk sequence into two groups (any sequence `l`
that is a permutation of `l1 ++ l2`), aggregating each group separately and
merging the two resulting count tables by key-wise addition gives, on every
key of every POS bucket, exactly the count obtained by aggregating the
whole sequence at once. -/
theorem aggregation_merge_assoc (stops : List String)
    (l1 l2 l : List (List Token)) (hperm : l.Perm (l1 ++ l2)) (k : String) :
    lookupCount (get_pos_frequencies stops l1).verbs k +
        lookupCount (get_pos_frequencies stops l2).verbs k =
      lookupCount (get_pos_frequencies stops l).verbs k ∧
    lookupCount (get_pos_frequencies stops l1).nouns k +
        lookupCount (get_pos_frequencies stops l2).nouns k =
      lookupCount (get_pos_frequencies stops l).nouns k ∧
    lookupCount (get_pos_frequencies stops l1).adjectives k +
        lookupCount (get_pos_frequencies stops l2).adjectives k =
      lookupCount (get_pos_frequencies stops l).adjectives k := by
  have h1 := lookupCount_get_pos_frequencies stops l1 k
  have h2 := lookupCount_get_pos_frequencies stops l2 k
  have hl := lookupCount_get_pos_frequencies stops l k
  have hflat : l.flatten.Perm (l1.flatten ++ l2.flatten) := by
    have := hperm.flatten
    rwa [List.flatten_append] at this
  have hcount : ∀ p : Token → Bool,
      l.flatten.countP p = l1.flatten.countP p + l2.flatten.countP p := by
    intro p
    rw [hflat.countP_eq p, List.countP_append]
  refine ⟨?_, ?_, ?_⟩
  · rw [h1.1, h2.1, hl.1, hcount]
  · rw [h1.2.1, h2.2.1, hl.2.1, hcount]
  · rw [h1.2.2, h2.2.2, hl.2.2, hcount]

/-- C5 witness: two one-chunk groups against their interleaving, evaluated
at the key "run". -/
theorem aggregation_merge_assoc_witness :
    lookupCount (get_pos_frequencies []
        [[⟨"running", "run", "VERB", [], [], false, true⟩]]).verbs "run" +
      lookupCount (get_pos_frequencies []
        [[⟨"cats", "cat", "NOUN", [], [], false, true⟩]]).verbs "run" =
      lookupCount (get_pos_frequencies []
        [[⟨"cats", "cat", "NOUN", [], [], false, true⟩],
          [⟨"running", "run", "VERB", [], [], false, true⟩]]).verbs "run" ∧
    lookupCount (get_pos_frequencies []
        [[⟨"running", "run", "VERB", [], [], false, true⟩]]).nouns "run" +
      lookupCount (get_pos_frequencies []
        [[⟨"cats", "cat", "NOUN", [], [], false, true⟩]]).nouns "run" =
      lookupCount (get_pos_frequencies []
        [[⟨"cats", "cat", "NOUN", [], [], false, true⟩],
          [⟨"running", "run", "VERB", [], [], false, true⟩]]).nouns "run" ∧
    lookupCount (get_pos_frequencies []
        [[⟨"running", "run", "VERB", [], [], false, true⟩]]).adjectives "run" +
      lookupCount (get_pos_frequencies []
        [[⟨"cats", "cat", "NOUN", [], [], false, true⟩]]).adjectives "run" =
      lookupCount (get_pos_frequencies []
        [[⟨"cats", "cat", "NOUN", [], [], false, true⟩],
          [⟨"running", "run", "VERB", [], [], false, true⟩]]).adjectives "run" :=
  aggregation_merge_assoc []
    [[⟨"running", "run", "VERB", [], [], false, true⟩]]
    [[⟨"cats", "cat", "NOUN", [], [], false, true⟩]]
    [[⟨"cats", "cat", "NOUN", [], [], false, true⟩],
      [⟨"running", "run", "VERB", [], [], false, true⟩]]
    (by decide) "run"

/-- C6 counterexample: on an empty count table `get_stats` raises the
`ValueError` produced by Python's `max()` over the empty frequency list; it
does not report a typed EmptyDistribution result. -/
theorem get_stats_empty_cx :
    get_stats [] = Except.error "ValueError: max() arg is an empty sequence" :=
  rfl

/-- C6 amended: `get_stats()` on an empty count table raises `ValueError`
(from `max(frequencies)`; `np.mean`/`np.median` only warn) instead of
reporting a typed EmptyDistribution condition; on every non-empty table it
returns the statistics dictionary normally. -/
theorem get_stats_empty_amended (c : List (String × Nat)) :
    (c = [] → get_stats c = Except.error "ValueError: max() arg is an empty sequence") ∧
    (c ≠ [] → (get_stats c).isOk = true) := by
  constructor
  · intro h
    subst h
    rfl
  · intro h
    cases c with
    | nil => exact absurd rfl h
    | cons p rest => simp [get_stats, Except.isOk, Except.toBool]

/-- C6 witness: the amended behavior evaluated on the empty table and on a
one-entry table. -/
theorem get_stats_empty_amended_witness :
    get_stats [] = Except.error "ValueError: max() arg is an empty sequence" ∧
      (get_stats [("word", 3)]).isOk = true :=
  ⟨(get_stats_empty_amended []).1 rfl,
    (get_stats_empty_amended [("word", 3)]).2 (by decide)⟩

/-- C7 counterexample: on the table with counts 3 and 1, `get_range` called
with `start = 5 > end = 2` silently returns the degenerate empty list, and
`least_common` called with the negative `min_freq = -1` silently returns
every entry; neither call reports an InvalidQueryBounds error. -/
theorem invalid_bounds_cx :
    get_range [("cat", 3), ("dog", 1)] (some 5) (some 2) = [] ∧
      least_common [("cat", 3), ("dog", 1)] none (-1) =
        [("dog", 1), ("cat", 3)] := by
  decide

/-- C7 amended: the query methods validate nothing.  With `end < start`,
`get_range` returns the empty list (every count fails the contradictory
bounds); with a negative `min_freq`, `least_common` filters nothing and
returns the whole reversed ranking index (truncated to `n` when given).
No error value is produced — the interactive menu validates its inputs
before calling, but the `FrequencyDist` methods themselves silently return
these degenerate results. -/
theorem invalid_bounds_amended (c : List (String × Nat)) (s e minFreq : Int)
    (n : Nat) (hlt : e < s) (hneg : minFreq < 0) :
    get_range c (some s) (some e) = [] ∧
    least_common c none minFreq = (sorted_items c).reverse ∧
    least_common c (some n) minFreq = (sorted_items c).reverse.take n := by
  have hfilter : (sorted_items c).filter (fun p => decide (minFreq ≤ (p.2 : Int))) =
      sorted_items c := by
    rw [List.filter_eq_self]
    intro p _
    simp only [decide_eq_true_eq]
    have : (0 : Int) ≤ (p.2 : Int) := Int.natCast_nonneg p.2
    omega
  refine ⟨?_, ?_, ?_⟩
  · rw [get_range, List.filter_eq_nil_iff]
    intro p _
    simp only [Bool.and_eq_true, decide_eq_true_eq, not_and]
    intro hs
    omega
  · rw [least_common]
    simp only [hfilter]
  · rw [least_common]
    simp only [hfilter]

/-- C7 witness: the amended behavior evaluated on a two-entry table with
`start = 5, end = 2, min_freq = -1, n = 1`. -/
theorem invalid_bounds_amended_witness :
    get_range [("cat", 3), ("dog", 1)] (some 5) (some 2) = [] ∧
    least_common [("cat", 3), ("dog", 1)] none (-1) =
      (sorted_items [("cat", 3), ("dog", 1)]).reverse ∧
    least_common [("cat", 3), ("dog", 1)] (some 1) (-1) =
      (sorted_items [("cat", 3), ("dog", 1)]).reverse.take 1 :=
  invalid_bounds_amended [("cat", 3), ("dog", 1)] 5 2 (-1) 1
    (by decide) (by decide)

/-- C8: over a count table with unique keys and strictly positive counts
(the Count Table invariant), `least_common(n)` with the default
`min_freq = 1`, for `n` the table size, is exactly the reversal of
`most_common(n)` — so the two calls together enumerate every key exactly
once — and the ranking index both traverse is a permutation of the table's
items, ordered by strictly descending count with ties broken by strictly
ascending key. -/
theorem ranking_reversal_spec (c : List (String × Nat))
    (hnd : (c.map Prod.fst).Nodup) (hpos : ∀ p ∈ c, 1 ≤ p.2) :
    least_common c (some c.length) 1 = (most_common c (some c.length)).reverse ∧
    (sorted_items c).Perm c ∧
    (sorted_items c).Pairwise (fun a b => b.2 < a.2 ∨ (a.2 = b.2 ∧ a.1 < b.1)) := by
  have hperm : (sorted_items c).Perm c := List.perm_insertionSort rankLe c
  have hsorted : (sorted_items c).Pairwise rankLe :=
    List.sorted_insertionSort rankLe c
  have hlen : (sorted_items c).length = c.length := hperm.length_eq
  have hfilter : (sorted_items c).filter (fun p => decide ((1 : Int) ≤ (p.2 : Int))) =
      sorted_items c := by
    rw [List.filter_eq_self]
    intro p hp
    have h1 : 1 ≤ p.2 := hpos p (hperm.subset hp)
    simp only [decide_eq_true_eq]
    omega
  refine ⟨?_, hperm, ?_⟩
  · show ((sorted_items c).filter fun p => decide ((1 : Int) ≤ (p.2 : Int))).reverse.take
        c.length = ((sorted_items c).take c.length).reverse
    rw [hfilter, ← hlen, List.take_length, ← List.length_reverse, List.take_length]
  · have hkeysnd : ((sorted_items c).map Prod.fst).Nodup :=
      ((hperm.map Prod.fst).nodup_iff).mpr hnd
    have hkeys : (sorted_items c).Pairwise (fun a b => a.1 ≠ b.1) :=
      List.pairwise_map.mp hkeysnd
    refine (hsorted.and hkeys).imp ?_
    rintro a b ⟨hr, hne⟩
    rcases hr with h | ⟨h1, h2⟩
    · exact Or.inl h
    · exact Or.inr ⟨h1, lt_of_le_of_ne h2 hne⟩

/-- C8 witness: the ranking facts evaluated on the table
`[("b", 2), ("a", 1)]` of size 2. -/
theorem ranking_reversal_spec_witness :
    least_common [("b", 2), ("a", 1)] (some 2) 1 =
      (most_common [("b", 2), ("a", 1)] (some 2)).reverse ∧
    (sorted_items [("b", 2), ("a", 1)]).Perm [("b", 2), ("a", 1)] ∧
    (sorted_items [("b", 2), ("a", 1)]).Pairwise
      (fun a b => b.2 < a.2 ∨ (a.2 = b.2 ∧ a.1 < b.1)) :=
  ranking_reversal_spec [("b", 2), ("a", 1)] (by decide) (by decide)

/-- One chunk's noun-phrase fold adds, for each phrase, the number of its
spans whose normalized phrase is that phrase and which pass the guard. -/
theorem lookupCount_phrase_foldl (doc : List (List Token)) :
    ∀ (acc : List (String × Nat)) (p : String),
      lookupCount
        (doc.foldl
          (fun acc2 span =>
            if phraseKept span then counterAdd acc2 (normalizePhrase span) else acc2)
          acc) p =
        lookupCount acc p +
          doc.countP (fun span => phraseKept span && (normalizePhrase span == p)) := by
  induction doc with
  | nil => intro acc p; simp
  | cons span spans ih =>
    intro acc p
    simp only [List.foldl_cons, List.countP_cons, ih]
    by_cases hkept : phraseKept span
    · by_cases hp : normalizePhrase span = p
      · simp only [hkept, hp, lookupCount_counterAdd, if_pos rfl, if_true,
          beq_self_eq_true, Bool.and_true, Bool.and_self]
        omega
      · simp [hkept, hp, lookupCount_counterAdd]
    · simp [hkept]

/-- C9: for every phrase `p`, the phrase table built by `get_noun_phrases`
stores under `p` exactly the number of noun-phrase spans (over all chunks)
whose normalized phrase — the space-join, in span order, of the lowercased
lemmas of exactly those span tokens that are alphabetic and not stop words
— equals `p` and which retain at least 2 whitespace-separated components
after filtering; moreover the source's guard `phrase and
len(phrase.split()) > 1` holds precisely when the split of the normalized
phrase has at least 2 components, so spans with fewer components are
counted nowhere. -/
theorem noun_phrase_counting_spec (docs : List (List (List Token))) (p : String) :
    lookupCount (get_noun_phrases docs) p =
      docs.flatten.countP
        (fun span => phraseKept span && (normalizePhrase span == p)) ∧
    ∀ span : List Token,
      phraseKept span = true ↔
        2 ≤ (pySplitAux (normalizePhrase span).data []).length := by
  constructor
  · suffices h : ∀ (acc : List (String × Nat)),
        lookupCount
          (docs.foldl
            (fun acc doc =>
              doc.foldl
                (fun acc2 span =>
                  if phraseKept span then counterAdd acc2 (normalizePhrase span)
                  else acc2)
                acc)
            acc) p =
          lookupCount acc p +
            docs.flatten.countP
              (fun span => phraseKept span && (normalizePhrase span == p)) by
      have := h []
      simpa [get_noun_phrases, lookupCount] using this
    induction docs with
    | nil => intro acc; simp
    | cons doc rest ih =>
      intro acc
      simp only [List.foldl_cons, List.flatten_cons, List.countP_append,
        lookupCount_phrase_foldl doc acc p, ih]
      omega
  · intro span
    unfold phraseKept
    constructor
    · intro h
      simp only [Bool.and_eq_true, Bool.not_eq_true', beq_eq_false_iff_ne,
        decide_eq_true_eq] at h
      omega
    · intro h
      have hne : ¬ normalizePhrase span = "" := by
        intro heq
        rw [heq] at h
        simp [pySplitAux] at h
      simp only [Bool.and_eq_true, Bool.not_eq_true', beq_eq_false_iff_ne,
        decide_eq_true_eq]
      exact ⟨hne, by omega⟩

/-- C10 counterexample: the tables `[("ab", 1), ("cd", 1)]` and
`[("cd", 1), ("ab", 1)]` are equal as key-to-count mappings (they are
permutations of one another and every lookup agrees), yet `get_longest(2)`
returns them in different orders, because the sort key `(len(key), count)`
ties on both entries and Python's stable sort then falls back to the
table's insertion order. -/
theorem get_longest_cx :
    lookupCount [("ab", 1), ("cd", 1)] = lookupCount [("cd", 1), ("ab", 1)] ∧
    ([("ab", 1), ("cd", 1)] : List (String × Nat)).Perm [("cd", 1), ("ab", 1)] ∧
    get_longest [("ab", 1), ("cd", 1)] 2 ≠ get_longest [("cd", 1), ("ab", 1)] 2 := by
  refine ⟨?_, by decide, by decide⟩
  funext k
  by_cases h1 : "ab" = k
  · subst h1
    decide
  · by_cases h2 : "cd" = k
    · subst h2
      decide
    · simp [lookupCount, h1, h2]

/-- C10 amended: `get_longest(n)` is a deterministic function of the count
table's item sequence (keys with counts, in insertion order), not of the
key-to-count mapping alone: it returns the items stably sorted by
descending key length with ties by descending count, truncated to the
first `n`.  The full output is a permutation of the table's items, in
`lenGe` order, and — the stability clause — any two entries that tie on
both key length and count and appear as an ordered pair of the table
(`[a, b]` a sublist of `c`) appear in that same relative order in the
output: ties fall back to the table's insertion order. -/
theorem get_longest_amended (c : List (String × Nat)) (n : Nat) :
    (get_longest c c.length).Perm c ∧
    (get_longest c c.length).Pairwise lenGe ∧
    get_longest c n = (get_longest c c.length).take n ∧
    (∀ a b : String × Nat, a.1.length = b.1.length → a.2 = b.2 →
      [a, b].Sublist c → [a, b].Sublist (get_longest c c.length)) := by
  have hperm := List.perm_insertionSort lenGe c
  have hlen : (c.insertionSort lenGe).length = c.length := hperm.length_eq
  have hfull : get_longest c c.length = c.insertionSort lenGe := by
    rw [get_longest, ← hlen, List.take_length]
  refine ⟨hfull ▸ hperm, hfull ▸ List.sorted_insertionSort lenGe c, ?_, ?_⟩
  · rw [get_longest, hfull]
  · intro a b hL hcnt hsub
    rw [hfull]
    exact List.pair_sublist_insertionSort
      (Or.inr ⟨hL, le_of_eq hcnt.symm⟩) hsub

/-- C10 witness: the stability clause of the amended statement evaluated on
the table `[("ab", 1), ("cd", 1)]`, whose two entries tie on both key
length and count: the pair keeps its insertion order in `get_longest`'s
output. -/
theorem get_longest_amended_witness :
    ([(("ab" : String), 1), (("cd" : String), 1)] : List (String × Nat)).Sublist
      (get_longest [("ab", 1), ("cd", 1)] 2) :=
  (get_longest_amended [("ab", 1), ("cd", 1)] 2).2.2.2
    ("ab", 1) ("cd", 1) (by decide) (by decide) (by decide)
